import Mathlib

/-!
Verification of the interval scheduling engine of `data_handling.py`
(schedulebuddy): the overlap validator `Database.add_event` and the
free-time sweep `Database.get_inverse_schedule`, shallowly embedded over
lists of events with integer times.
-/

set_option maxRecDepth 4000

/-- Events as stored in the database: the namedtuple
`Event(username, event_name, start_time, end_time, mon..sun)`. -/
structure Event where
  username : String
  event_name : String
  start_time : Int
  end_time : Int
  mon : Bool
  tue : Bool
  wed : Bool
  thur : Bool
  fri : Bool
  sat : Bool
  sun : Bool
deriving DecidableEq, Repr

/-- Default event used only to give `List.getD` a value at guarded indices. -/
def dummyEvent : Event := ⟨"", "", 0, 0, false, false, false, false, false, false, false⟩

/-- The `Event('', 'Free Time', s, e, False, ..., False)` rows built by
`get_inverse_schedule`. -/
def mkFree (s e : Int) : Event :=
  ⟨"", "Free Time", s, e, false, false, false, false, false, false, false⟩

/-- Overlap of the half-open intervals of two events (spec section 4.1). -/
def overlaps (a b : Event) : Prop :=
  a.start_time < b.end_time ∧ b.start_time < a.end_time

instance (a b : Event) : Decidable (overlaps a b) :=
  inferInstanceAs (Decidable (_ ∧ _))

/-- A calendar as returned by `get_sorted_events`: ascending by `end_time`. -/
def sortedByEnd (l : List Event) : Prop :=
  l.Chain' (fun a b => a.end_time ≤ b.end_time)

def decSortedByEnd : (l : List Event) → Decidable (sortedByEnd l)
  | [] => .isTrue List.chain'_nil
  | [a] => .isTrue (List.chain'_singleton a)
  | a :: b :: l =>
    have : Decidable (sortedByEnd (b :: l)) := decSortedByEnd (b :: l)
    decidable_of_iff (a.end_time ≤ b.end_time ∧ sortedByEnd (b :: l))
      (by unfold sortedByEnd; rw [List.chain'_cons])

instance (l : List Event) : Decidable (sortedByEnd l) := decSortedByEnd l

/-- No two events of the list overlap. -/
def conflictFree (l : List Event) : Prop :=
  l.Pairwise (fun a b => ¬ overlaps a b)

def decConflictFree : (l : List Event) → Decidable (conflictFree l)
  | [] => .isTrue List.Pairwise.nil
  | a :: l =>
    have : Decidable (conflictFree l) := decConflictFree l
    decidable_of_iff ((∀ b ∈ l, ¬ overlaps a b) ∧ conflictFree l)
      (by unfold conflictFree; rw [List.pairwise_cons])

instance (l : List Event) : Decidable (conflictFree l) := decConflictFree l

/-- Consecutive events strictly in sequence: each ends no later than the
next starts. -/
def eventChain (l : List Event) : Prop :=
  l.Chain' (fun a b => a.end_time ≤ b.start_time)

/-- Some event of some calendar in the list covers the time `t`. -/
def busyIn (ls : List (List Event)) (t : Int) : Prop :=
  ∃ l ∈ ls, ∃ e ∈ l, e.start_time ≤ t ∧ t < e.end_time

instance (ls : List (List Event)) (t : Int) : Decidable (busyIn ls t) :=
  inferInstanceAs (Decidable (∃ l ∈ ls, ∃ e ∈ l, e.start_time ≤ t ∧ t < e.end_time))

/-- The binary-search loop of Python's `bisect.bisect_left`:
`while lo < hi: mid = (lo+hi)//2; if a[mid] < x: lo = mid+1 else: hi = mid`.
The fuel argument only bounds the iteration count; `hi - lo` shrinks every
round, so any fuel of at least `hi - lo` reproduces the loop exactly. -/
def bisectLeftAux : Nat → List Int → Int → Nat → Nat → Nat
  | 0, _, _, lo, _ => lo
  | fuel + 1, a, x, lo, hi =>
    if lo < hi then
      if a.getD ((lo + hi) / 2) 0 < x then bisectLeftAux fuel a x ((lo + hi) / 2 + 1) hi
      else bisectLeftAux fuel a x lo ((lo + hi) / 2)
    else lo

/-- `bisect.bisect_left(a, x)` over the whole list. -/
def bisect_left (a : List Int) (x : Int) : Nat :=
  bisectLeftAux a.length a x 0 a.length

/-- The rejection reasons of `add_event` (the `ValueError`s it raises,
besides the unknown-user one handled by the storage layer). -/
inductive AddError where
  | invalidRange
  | overlapsPrevious (prev : Event)
  | overlapsNext (next : Event)
deriving DecidableEq, Repr

instance {ε α : Type} [DecidableEq ε] [DecidableEq α] : DecidableEq (Except ε α)
  | .error a, .error b =>
    if h : a = b then .isTrue (by rw [h]) else .isFalse (by intro hh; cases hh; exact h rfl)
  | .error _, .ok _ => .isFalse (by intro h; cases h)
  | .ok _, .error _ => .isFalse (by intro h; cases h)
  | .ok a, .ok b =>
    if h : a = b then .isTrue (by rw [h]) else .isFalse (by intro hh; cases hh; exact h rfl)

/-- `Database.add_event` on a calendar already sorted by end time, for an
existing user: the range check, the `bisect_left` placement, the
previous-neighbor check `start_time < sorted_events[p-1].end_time`, the
next-neighbor check `end_time > sorted_events[p].end_time` (the source
compares against `end_time`, line 80), then the insertion. -/
def add_event (cal : List Event) (e : Event) : Except AddError (List Event) :=
  if e.end_time < e.start_time then .error .invalidRange
  else
    let p := bisect_left (cal.map Event.end_time) e.end_time
    if 0 < p ∧ e.start_time < (cal.getD (p - 1) dummyEvent).end_time then
      .error (.overlapsPrevious (cal.getD (p - 1) dummyEvent))
    else if p < cal.length ∧ (cal.getD p dummyEvent).end_time < e.end_time then
      .error (.overlapsNext (cal.getD p dummyEvent))
    else .ok (cal.take p ++ e :: cal.drop p)

/-- Run `add_event`, keeping the calendar unchanged when it raises. -/
def applyAdd (cal : List Event) (e : Event) : List Event :=
  match add_event cal e with
  | .ok c => c
  | .error _ => cal

/-- Build a calendar from empty by attempting the events in order and
keeping only those `add_event` accepts. -/
def buildCalendar (evs : List Event) : List Event :=
  evs.foldl applyAdd []

/-- One pass of the `for event_index in range(len(events_list))` loop of
`get_inverse_schedule`: each calendar drops its leading events with
`end_time ≤ pointer`; the first calendar whose remaining front event has
`start_time ≤ pointer` breaks with the new pointer set to that front
event's `end_time`, leaving the later calendars untouched. -/
def sweepPass (p : Int) : List (List Event) → Option Int × List (List Event)
  | [] => (none, [])
  | l :: ls =>
    match l.dropWhile (fun e => decide (e.end_time ≤ p)) with
    | [] =>
      let r := sweepPass p ls
      (r.1, [] :: r.2)
    | e :: rest =>
      if e.start_time ≤ p then (some e.end_time, (e :: rest) :: ls)
      else
        let r := sweepPass p ls
        (r.1, (e :: rest) :: r.2)

/-- Minimum of a list, as Python's `min` over a nonempty iterable. -/
def listMin : List Int → Option Int
  | [] => none
  | x :: xs =>
    match listMin xs with
    | none => some x
    | some m => some (min x m)

/-- `min(events[0].start_time for events in events_list if events)`:
`none` models the `ValueError` of `min` on an empty generator. -/
def nextStart (ls : List (List Event)) : Option Int :=
  listMin ((ls.filterMap List.head?).map Event.start_time)

/-- The `while pointer < end_time` loop of `get_inverse_schedule`. The
fuel only bounds the iteration count: the pointer strictly increases each
round, so any fuel above `(we - p).toNat` reproduces the loop exactly
(proved below). -/
def sweepLoopF : Nat → Int → Int → List (List Event) → List Event
  | 0, _, _, _ => []
  | fuel + 1, we, p, ls =>
    if p < we then
      match sweepPass p ls with
      | (some p2, ls2) => sweepLoopF fuel we p2 ls2
      | (none, ls2) =>
        match nextStart ls2 with
        | some m => mkFree p (min m we) :: sweepLoopF fuel we m ls2
        | none => if p = we then [] else [mkFree p we]
    else []

/-- The sweep loop at its canonical, provably sufficient fuel. -/
def sweepLoop (we p : Int) (ls : List (List Event)) : List Event :=
  sweepLoopF ((we - p).toNat + 1) we p ls

/-- `Database.get_inverse_schedule` on the already-fetched calendars of
the queried users. -/
def get_inverse_schedule (calendars : List (List Event)) (start_time end_time : Int) :
    List Event :=
  sweepLoop end_time start_time calendars

/-- Modelled from the spec (section 4.3 step 2): the minimum `end` over
all calendars whose current front event, after dropping, is busy at the
pointer. The source has no such computation; it is stated here only to
compare the code's busy step against the spec's words. -/
def specMinBusyEnd (p : Int) (ls : List (List Event)) : Option Int :=
  listMin ((((ls.filterMap fun l => (l.dropWhile fun e => decide (e.end_time ≤ p)).head?).filter
    fun e => decide (e.start_time ≤ p)).map Event.end_time))

/-- Concrete events used by the counterexamples and witnesses. -/
def evA : Event := ⟨"u", "A", 0, 10, false, false, false, false, false, false, false⟩

def evB : Event := ⟨"u", "B", 0, 5, false, false, false, false, false, false, false⟩

def evB3 : Event := ⟨"u", "C", 0, 3, false, false, false, false, false, false, false⟩

def evZ : Event := ⟨"u", "Z", 5, 5, false, false, false, false, false, false, false⟩

def evY : Event := ⟨"u", "Y", 3, 5, false, false, false, false, false, false, false⟩

def evBad : Event := ⟨"u", "W", 5, 2, false, false, false, false, false, false, false⟩

def evC : Event := ⟨"u", "D", 2, 4, false, false, false, false, false, false, false⟩

def evG : Event := ⟨"u", "G", 3, 6, false, false, false, false, false, false, false⟩

/-! ### Properties of the binary search -/

theorem bisectLeftAux_le_hi (fuel : Nat) : ∀ (a : List Int) (x : Int) (lo hi : Nat),
    lo ≤ hi → lo ≤ bisectLeftAux fuel a x lo hi ∧ bisectLeftAux fuel a x lo hi ≤ hi := by
  induction fuel with
  | zero => intro a x lo hi h; exact ⟨Nat.le_refl _, h⟩
  | succ fuel ih =>
    intro a x lo hi h
    simp only [bisectLeftAux]
    split
    · rename_i hlt
      split
      · have := ih a x ((lo + hi) / 2 + 1) hi (by omega)
        omega
      · have := ih a x lo ((lo + hi) / 2) (by omega)
        omega
    · exact ⟨Nat.le_refl _, h⟩

theorem bisectLeftAux_upper (fuel : Nat) : ∀ (a : List Int) (x : Int) (lo hi : Nat),
    hi - lo ≤ fuel → lo ≤ hi → hi ≤ a.length →
    (hi = a.length ∨ x ≤ a.getD hi 0) →
    bisectLeftAux fuel a x lo hi = a.length ∨ x ≤ a.getD (bisectLeftAux fuel a x lo hi) 0 := by
  induction fuel with
  | zero =>
    intro a x lo hi hfuel hle _ hinv
    have : lo = hi := by omega
    subst this
    simpa [bisectLeftAux] using hinv
  | succ fuel ih =>
    intro a x lo hi hfuel hle hlen hinv
    simp only [bisectLeftAux]
    split
    · rename_i hlt
      split
      · exact ih a x ((lo + hi) / 2 + 1) hi (by omega) (by omega) hlen hinv
      · rename_i hmid
        exact ih a x lo ((lo + hi) / 2) (by omega) (by omega) (by omega) (Or.inr (by omega))
    · rename_i hge
      have heq : lo = hi := by omega
      subst heq
      exact hinv

theorem pairwise_getD_le (a : List Int) (ha : a.Pairwise (· ≤ ·)) (i j : Nat)
    (hij : i ≤ j) (hj : j < a.length) : a.getD i 0 ≤ a.getD j 0 := by
  rcases Nat.lt_or_ge i j with hlt | hge
  · have hi : i < a.length := Nat.lt_trans hlt hj
    rw [a.getD_eq_getElem 0 hi, a.getD_eq_getElem 0 hj]
    exact List.pairwise_iff_getElem.mp ha i j hi hj hlt
  · have : i = j := Nat.le_antisymm hij hge
    subst this
    exact Int.le_refl _

theorem bisectLeftAux_lower (fuel : Nat) : ∀ (a : List Int) (x : Int) (lo hi : Nat),
    a.Pairwise (· ≤ ·) → lo ≤ hi → hi ≤ a.length →
    (∀ i, i < lo → a.getD i 0 < x) →
    ∀ i, i < bisectLeftAux fuel a x lo hi → a.getD i 0 < x := by
  induction fuel with
  | zero =>
    intro a x lo hi _ _ _ hbelow i hi2
    exact hbelow i (by simpa [bisectLeftAux] using hi2)
  | succ fuel ih =>
    intro a x lo hi ha hle hlen hbelow i hi2
    simp only [bisectLeftAux] at hi2
    split at hi2
    · rename_i hlt
      split at hi2
      · rename_i hmid
        refine ih a x ((lo + hi) / 2 + 1) hi ha (by omega) hlen ?_ i hi2
        intro j hj
        rcases Nat.lt_or_ge j lo with hcase | hcase
        · exact hbelow j hcase
        · calc a.getD j 0 ≤ a.getD ((lo + hi) / 2) 0 :=
                pairwise_getD_le a ha j ((lo + hi) / 2) (by omega) (by omega)
            _ < x := hmid
      · exact ih a x lo ((lo + hi) / 2) ha (by omega) (by omega) hbelow i hi2
    · exact hbelow i hi2

theorem bisect_left_le (a : List Int) (x : Int) : bisect_left a x ≤ a.length :=
  (bisectLeftAux_le_hi a.length a x 0 a.length (Nat.zero_le _)).2

theorem bisect_left_upper (a : List Int) (x : Int) (h : bisect_left a x < a.length) :
    x ≤ a.getD (bisect_left a x) 0 := by
  have := bisectLeftAux_upper a.length a x 0 a.length (by omega) (Nat.zero_le _)
    (Nat.le_refl _) (Or.inl rfl)
  unfold bisect_left at h ⊢
  omega

theorem bisect_left_lower (a : List Int) (x : Int) (ha : a.Pairwise (· ≤ ·)) :
    ∀ i, i < bisect_left a x → a.getD i 0 < x :=
  bisectLeftAux_lower a.length a x 0 a.length ha (Nat.zero_le _) (Nat.le_refl _)
    (fun i h => absurd h (Nat.not_lt_zero i))

theorem getD_map_end (cal : List Event) (i : Nat) (h : i < cal.length) :
    (cal.map Event.end_time).getD i 0 = (cal.getD i dummyEvent).end_time := by
  rw [(cal.map Event.end_time).getD_eq_getElem 0 (by simpa using h),
    cal.getD_eq_getElem dummyEvent h]
  simp

theorem sortedByEnd_pairwise (cal : List Event) (h : sortedByEnd cal) :
    (cal.map Event.end_time).Pairwise (· ≤ ·) := by
  rw [← List.chain'_iff_pairwise]
  exact List.chain'_map_of_chain' Event.end_time (fun _ _ hab => hab) h

/-! ### Claims about the overlap validator -/

/-- C9: the next-neighbor rejection branch of `add_event` is dead code.
For every calendar and candidate, `bisect_left` returns a position whose
event, when it exists, has `end_time ≥` the candidate's `end_time`, so
the guard `end_time > sorted_events[new_event_placement].end_time` on
line 80 is false on every input and `add_event` never raises the
"ends after next event" error. -/
theorem addEvent_no_overlapsNext (cal : List Event) (e : Event) (nx : Event) :
    add_event cal e ≠ Except.error (AddError.overlapsNext nx) := by
  intro h
  simp only [add_event] at h
  split at h
  · simp at h
  · split at h
    · simp at h
    · split at h
      · rename_i hguard
        have hlt : bisect_left (cal.map Event.end_time) e.end_time < cal.length := hguard.1
        have hup := bisect_left_upper (cal.map Event.end_time) e.end_time (by simpa using hlt)
        rw [getD_map_end cal _ hlt] at hup
        have := hguard.2
        omega
      · simp at h

/-- C5: on an end-sorted calendar, the insertion position computed by
`add_event` is the `bisect_left` one — every event strictly before it ends
strictly before the candidate, the event at it (when it exists) ends no
earlier than the candidate (ties land before the first equal end) — and
the previous-neighbor check rejects with the overlaps-previous error
naming `sorted_events[p-1]` exactly when `p > 0` and the candidate starts
before that event ends. -/
theorem addEvent_prev_check (cal : List Event) (e : Event)
    (hs : sortedByEnd cal) (hr : e.start_time ≤ e.end_time) :
    (bisect_left (cal.map Event.end_time) e.end_time ≤ cal.length ∧
      (∀ i, i < bisect_left (cal.map Event.end_time) e.end_time →
        (cal.getD i dummyEvent).end_time < e.end_time) ∧
      (bisect_left (cal.map Event.end_time) e.end_time < cal.length →
        e.end_time ≤ (cal.getD (bisect_left (cal.map Event.end_time) e.end_time)
          dummyEvent).end_time)) ∧
    (0 < bisect_left (cal.map Event.end_time) e.end_time →
      e.start_time < (cal.getD (bisect_left (cal.map Event.end_time) e.end_time - 1)
          dummyEvent).end_time →
      add_event cal e = Except.error (AddError.overlapsPrevious
        (cal.getD (bisect_left (cal.map Event.end_time) e.end_time - 1) dummyEvent))) ∧
    ((bisect_left (cal.map Event.end_time) e.end_time = 0 ∨
      (cal.getD (bisect_left (cal.map Event.end_time) e.end_time - 1)
          dummyEvent).end_time ≤ e.start_time) →
      ∀ ev, add_event cal e ≠ Except.error (AddError.overlapsPrevious ev)) := by
  have hlen : bisect_left (cal.map Event.end_time) e.end_time ≤ cal.length := by
    have := bisect_left_le (cal.map Event.end_time) e.end_time
    simpa using this
  have hlow := bisect_left_lower (cal.map Event.end_time) e.end_time
    (sortedByEnd_pairwise cal hs)
  refine ⟨⟨hlen, ?_, ?_⟩, ?_, ?_⟩
  · intro i hi
    have hil : i < cal.length := Nat.lt_of_lt_of_le hi hlen
    have := hlow i hi
    rwa [getD_map_end cal i hil] at this
  · intro hlt
    have := bisect_left_upper (cal.map Event.end_time) e.end_time (by simpa using hlt)
    rwa [getD_map_end cal _ hlt] at this
  · intro hpos hover
    simp only [add_event]
    rw [if_neg (by omega)]
    rw [if_pos ⟨hpos, hover⟩]
  · intro hpass ev hcontra
    simp only [add_event] at hcontra
    rw [if_neg (by omega)] at hcontra
    split at hcontra
    · rename_i hguard
      rcases hpass with h0 | hle
      · omega
      · have := hguard.2
        omega
    · split at hcontra
      · simp at hcontra
      · simp at hcontra

/-- C5 witness: on the calendar `[evC]` (one event `[2,4)`), the candidate
`evG` (`[3,6)`) lands at position 1 and is rejected as overlapping the
previous event `evC`. -/
theorem addEvent_prev_check_witness :
    add_event [evC] evG = Except.error (AddError.overlapsPrevious evC) :=
  (addEvent_prev_check [evC] evG (by decide) (by decide)).2.1 (by decide) (by decide)

/-- C6: `add_event` raises the invalid-range error exactly when the
candidate's end precedes its start, and in that case the calendar is left
unchanged: the raise on line 72 happens before either insertion, so no
event row and no recurrence row is stored. -/
theorem addEvent_invalidRange (cal : List Event) (e : Event) :
    (add_event cal e = Except.error AddError.invalidRange ↔ e.end_time < e.start_time) ∧
    (e.end_time < e.start_time → applyAdd cal e = cal) := by
  constructor
  · constructor
    · intro h
      by_contra hlt
      simp only [add_event] at h
      rw [if_neg hlt] at h
      split at h
      · simp at h
      · split at h
        · simp at h
        · simp at h
    · intro h
      simp [add_event, h]
  · intro h
    simp [applyAdd, add_event, h]

/-- C6 witness: the candidate `evBad` with start 5 and end 2 is rejected
with the invalid-range error and leaves the empty calendar unchanged. -/
theorem addEvent_invalidRange_witness :
    applyAdd [] evBad = [] ∧ add_event [] evBad = Except.error AddError.invalidRange :=
  ⟨(addEvent_invalidRange [] evBad).2 (by decide),
    (addEvent_invalidRange [] evBad).1.mpr (by decide)⟩

/-- C1: the overlaps-next rejection claimed by the spec does not happen.
On the end-sorted, conflict-free calendar `[evA]` (one event `[0,10)`),
the candidate `evB` (`[0,5)`) passes the previous-neighbor check at
position `p = 0`, satisfies `p < 1` and `candidate.end > existing[0].start`,
yet is accepted: line 80 compares the candidate's end against the
neighbor's `end_time`, not its `start_time` as the spec, the docstring
and the error message all state. -/
theorem addEvent_misses_next_overlap :
    sortedByEnd [evA] ∧ conflictFree [evA] ∧ evB.start_time ≤ evB.end_time ∧
    bisect_left ([evA].map Event.end_time) evB.end_time = 0 ∧
    evA.start_time < evB.end_time ∧
    add_event [evA] evB = Except.ok [evB, evA] := by decide

/-- C2: the conflict-freedom invariant fails on the code. Building from
the empty calendar, `add_event` accepts `evA = [0,10)` and then
`evB = [0,5)`, leaving two overlapping events in the calendar. -/
theorem buildCalendar_overlap :
    buildCalendar [evA, evB] = [evB, evA] ∧ overlaps evB evA := by decide

/-! ### Properties of one pass of the sweep's inner loop -/

theorem busyIn_cons (l : List Event) (ls : List (List Event)) (t : Int) :
    busyIn (l :: ls) t ↔ (∃ e ∈ l, e.start_time ≤ t ∧ t < e.end_time) ∨ busyIn ls t := by
  simp [busyIn, List.exists_mem_cons_iff]

theorem dropWhile_head_end_gt (p : Int) : ∀ (l : List Event) (e : Event) (rest : List Event),
    l.dropWhile (fun e => decide (e.end_time ≤ p)) = e :: rest → p < e.end_time := by
  intro l
  induction l with
  | nil => intro e rest h; simp at h
  | cons a l ih =>
    intro e rest h
    by_cases ha : a.end_time ≤ p
    · rw [List.dropWhile_cons_of_pos (by simpa using ha)] at h
      exact ih e rest h
    · rw [List.dropWhile_cons_of_neg (by simpa using ha)] at h
      cases h
      omega

theorem covers_dropWhile_iff (p t : Int) (hpt : p ≤ t) : ∀ (l : List Event),
    (∃ e ∈ l.dropWhile (fun e => decide (e.end_time ≤ p)), e.start_time ≤ t ∧ t < e.end_time) ↔
    (∃ e ∈ l, e.start_time ≤ t ∧ t < e.end_time) := by
  intro l
  induction l with
  | nil => simp
  | cons a l ih =>
    by_cases ha : a.end_time ≤ p
    · rw [List.dropWhile_cons_of_pos (by simpa using ha)]
      rw [ih]
      constructor
      · rintro ⟨e, he, hc⟩
        exact ⟨e, List.mem_cons_of_mem a he, hc⟩
      · rintro ⟨e, he, hc⟩
        rcases List.mem_cons.mp he with rfl | he2
        · exact absurd hc.2 (by omega)
        · exact ⟨e, he2, hc⟩
    · rw [List.dropWhile_cons_of_neg (by simpa using ha)]

theorem sweepPass_some_lt : ∀ (ls : List (List Event)) (p p2 : Int) (ls2 : List (List Event)),
    sweepPass p ls = (some p2, ls2) → p < p2 := by
  intro ls
  induction ls with
  | nil => intro p p2 ls2 h; simp [sweepPass] at h
  | cons l ls ih =>
    intro p p2 ls2 h
    simp only [sweepPass] at h
    rcases hd : l.dropWhile (fun e => decide (e.end_time ≤ p)) with _ | ⟨e, rest⟩
    · rw [hd] at h
      have h1 : (sweepPass p ls).1 = some p2 := by
        have := congrArg Prod.fst h
        simpa using this
      exact ih p p2 (sweepPass p ls).2 (by rw [← h1])
    · rw [hd] at h
      replace h : (if e.start_time ≤ p
          then ((some e.end_time, (e :: rest) :: ls) : Option Int × List (List Event))
          else ((sweepPass p ls).1, (e :: rest) :: (sweepPass p ls).2)) = (some p2, ls2) := h
      by_cases hb : e.start_time ≤ p
      · rw [if_pos hb] at h
        have h1 : some e.end_time = some p2 := by
          have := congrArg Prod.fst h
          simpa using this
        cases h1
        exact dropWhile_head_end_gt p l e rest hd
      · rw [if_neg hb] at h
        have h1 : (sweepPass p ls).1 = some p2 := by
          have := congrArg Prod.fst h
          simpa using this
        exact ih p p2 (sweepPass p ls).2 (by rw [← h1])

theorem sweepPass_cons_nil (p : Int) (l : List Event) (ls : List (List Event))
    (hd : l.dropWhile (fun e => decide (e.end_time ≤ p)) = []) :
    sweepPass p (l :: ls) = ((sweepPass p ls).1, [] :: (sweepPass p ls).2) := by
  simp only [sweepPass]
  rw [hd]

theorem sweepPass_cons_busy (p : Int) (l : List Event) (ls : List (List Event)) (e : Event)
    (rest : List Event) (hd : l.dropWhile (fun e => decide (e.end_time ≤ p)) = e :: rest)
    (hb : e.start_time ≤ p) :
    sweepPass p (l :: ls) = (some e.end_time, (e :: rest) :: ls) := by
  simp only [sweepPass]
  rw [hd]
  show (if e.start_time ≤ p
      then ((some e.end_time, (e :: rest) :: ls) : Option Int × List (List Event))
      else ((sweepPass p ls).1, (e :: rest) :: (sweepPass p ls).2)) = _
  exact if_pos hb

theorem sweepPass_cons_free (p : Int) (l : List Event) (ls : List (List Event)) (e : Event)
    (rest : List Event) (hd : l.dropWhile (fun e => decide (e.end_time ≤ p)) = e :: rest)
    (hb : ¬ e.start_time ≤ p) :
    sweepPass p (l :: ls) = ((sweepPass p ls).1, (e :: rest) :: (sweepPass p ls).2) := by
  simp only [sweepPass]
  rw [hd]
  show (if e.start_time ≤ p
      then ((some e.end_time, (e :: rest) :: ls) : Option Int × List (List Event))
      else ((sweepPass p ls).1, (e :: rest) :: (sweepPass p ls).2)) = _
  exact if_neg hb

theorem sweepPass_none_heads : ∀ (ls : List (List Event)) (p : Int) (ls2 : List (List Event)),
    sweepPass p ls = (none, ls2) →
    ∀ l ∈ ls2, ∀ e rest, l = e :: rest → p < e.start_time ∧ p < e.end_time := by
  intro ls
  induction ls with
  | nil =>
    intro p ls2 h l hl e rest hle
    simp [sweepPass] at h
    subst h
    simp at hl
  | cons l0 ls ih =>
    intro p ls2 h l hl e rest hle
    rcases hd : l0.dropWhile (fun e => decide (e.end_time ≤ p)) with _ | ⟨e0, rest0⟩
    · rw [sweepPass_cons_nil p l0 ls hd] at h
      have h1 : (sweepPass p ls).1 = none := by
        have := congrArg Prod.fst h; simpa using this
      have h2 : [] :: (sweepPass p ls).2 = ls2 := by
        have := congrArg Prod.snd h; simpa using this
      rw [← h2] at hl
      rcases List.mem_cons.mp hl with rfl | hl2
      · cases hle
      · exact ih p (sweepPass p ls).2 (by rw [← h1]) l hl2 e rest hle
    · by_cases hb : e0.start_time ≤ p
      · rw [sweepPass_cons_busy p l0 ls e0 rest0 hd hb] at h
        have := congrArg Prod.fst h
        simp at this
      · rw [sweepPass_cons_free p l0 ls e0 rest0 hd hb] at h
        have h1 : (sweepPass p ls).1 = none := by
          have := congrArg Prod.fst h; simpa using this
        have h2 : (e0 :: rest0) :: (sweepPass p ls).2 = ls2 := by
          have := congrArg Prod.snd h; simpa using this
        rw [← h2] at hl
        rcases List.mem_cons.mp hl with rfl | hl2
        · cases hle
          exact ⟨by omega, dropWhile_head_end_gt p l0 _ _ hd⟩
        · exact ih p (sweepPass p ls).2 (by rw [← h1]) l hl2 e rest hle

theorem sweepPass_lists_shape : ∀ (ls : List (List Event)) (p : Int) (r : Option Int)
    (ls2 : List (List Event)), sweepPass p ls = (r, ls2) →
    ∀ l2 ∈ ls2, ∃ l ∈ ls,
      l2 = l.dropWhile (fun e => decide (e.end_time ≤ p)) ∨ l2 = l := by
  intro ls
  induction ls with
  | nil =>
    intro p r ls2 h l2 hl2
    simp [sweepPass] at h
    rw [h.2] at hl2
    simp at hl2
  | cons l0 ls ih =>
    intro p r ls2 h l2 hl2
    rcases hd : l0.dropWhile (fun e => decide (e.end_time ≤ p)) with _ | ⟨e0, rest0⟩
    · rw [sweepPass_cons_nil p l0 ls hd] at h
      have h2 : [] :: (sweepPass p ls).2 = ls2 := by
        have := congrArg Prod.snd h; simpa using this
      rw [← h2] at hl2
      rcases List.mem_cons.mp hl2 with rfl | hl2'
      · exact ⟨l0, List.mem_cons_self l0 ls, Or.inl hd.symm⟩
      · obtain ⟨l, hl, hcase⟩ := ih p (sweepPass p ls).1 (sweepPass p ls).2 rfl l2 hl2'
        exact ⟨l, List.mem_cons_of_mem l0 hl, hcase⟩
    · by_cases hb : e0.start_time ≤ p
      · rw [sweepPass_cons_busy p l0 ls e0 rest0 hd hb] at h
        have h2 : (e0 :: rest0) :: ls = ls2 := by
          have := congrArg Prod.snd h; simpa using this
        rw [← h2] at hl2
        rcases List.mem_cons.mp hl2 with rfl | hl2'
        · exact ⟨l0, List.mem_cons_self l0 ls, Or.inl hd.symm⟩
        · exact ⟨l2, List.mem_cons_of_mem l0 hl2', Or.inr rfl⟩
      · rw [sweepPass_cons_free p l0 ls e0 rest0 hd hb] at h
        have h2 : (e0 :: rest0) :: (sweepPass p ls).2 = ls2 := by
          have := congrArg Prod.snd h; simpa using this
        rw [← h2] at hl2
        rcases List.mem_cons.mp hl2 with rfl | hl2'
        · exact ⟨l0, List.mem_cons_self l0 ls, Or.inl hd.symm⟩
        · obtain ⟨l, hl, hcase⟩ := ih p (sweepPass p ls).1 (sweepPass p ls).2 rfl l2 hl2'
          exact ⟨l, List.mem_cons_of_mem l0 hl, hcase⟩

theorem sweepPass_some_front : ∀ (ls : List (List Event)) (p p2 : Int)
    (ls2 : List (List Event)), sweepPass p ls = (some p2, ls2) →
    ∃ l2 ∈ ls2, ∃ e rest, l2 = e :: rest ∧ e.start_time ≤ p ∧ e.end_time = p2 := by
  intro ls
  induction ls with
  | nil => intro p p2 ls2 h; simp [sweepPass] at h
  | cons l0 ls ih =>
    intro p p2 ls2 h
    rcases hd : l0.dropWhile (fun e => decide (e.end_time ≤ p)) with _ | ⟨e0, rest0⟩
    · rw [sweepPass_cons_nil p l0 ls hd] at h
      have h1 : (sweepPass p ls).1 = some p2 := by
        have := congrArg Prod.fst h; simpa using this
      have h2 : [] :: (sweepPass p ls).2 = ls2 := by
        have := congrArg Prod.snd h; simpa using this
      obtain ⟨l2, hl2, hrest⟩ := ih p p2 (sweepPass p ls).2 (by rw [← h1])
      exact ⟨l2, by rw [← h2]; exact List.mem_cons_of_mem [] hl2, hrest⟩
    · by_cases hb : e0.start_time ≤ p
      · rw [sweepPass_cons_busy p l0 ls e0 rest0 hd hb] at h
        have h1 : some e0.end_time = some p2 := by
          have := congrArg Prod.fst h; simpa using this
        have h2 : (e0 :: rest0) :: ls = ls2 := by
          have := congrArg Prod.snd h; simpa using this
        cases h1
        exact ⟨e0 :: rest0, by rw [← h2]; exact List.mem_cons_self _ _,
          e0, rest0, rfl, hb, rfl⟩
      · rw [sweepPass_cons_free p l0 ls e0 rest0 hd hb] at h
        have h1 : (sweepPass p ls).1 = some p2 := by
          have := congrArg Prod.fst h; simpa using this
        have h2 : (e0 :: rest0) :: (sweepPass p ls).2 = ls2 := by
          have := congrArg Prod.snd h; simpa using this
        obtain ⟨l2, hl2, hrest⟩ := ih p p2 (sweepPass p ls).2 (by rw [← h1])
        exact ⟨l2, by rw [← h2]; exact List.mem_cons_of_mem _ hl2, hrest⟩

theorem sweepPass_busyIn_iff : ∀ (ls : List (List Event)) (p : Int) (r : Option Int)
    (ls2 : List (List Event)), sweepPass p ls = (r, ls2) → ∀ t, p ≤ t →
    (busyIn ls2 t ↔ busyIn ls t) := by
  intro ls
  induction ls with
  | nil =>
    intro p r ls2 h t ht
    simp [sweepPass] at h
    rw [← h.2]
  | cons l0 ls ih =>
    intro p r ls2 h t ht
    rcases hd : l0.dropWhile (fun e => decide (e.end_time ≤ p)) with _ | ⟨e0, rest0⟩
    · rw [sweepPass_cons_nil p l0 ls hd] at h
      have h2 : [] :: (sweepPass p ls).2 = ls2 := by
        have := congrArg Prod.snd h; simpa using this
      rw [← h2, busyIn_cons, busyIn_cons,
        ih p (sweepPass p ls).1 (sweepPass p ls).2 rfl t ht]
      constructor
      · rintro (⟨e, he, hc⟩ | hb2)
        · simp at he
        · exact Or.inr hb2
      · rintro (⟨e, he, hc⟩ | hb2)
        · exact Or.inl (((covers_dropWhile_iff p t ht l0).mpr ⟨e, he, hc⟩).elim
            (fun e2 h2c => absurd (hd ▸ h2c.1) (List.not_mem_nil e2)))
        · exact Or.inr hb2
    · have hiff : (∃ e ∈ e0 :: rest0, e.start_time ≤ t ∧ t < e.end_time) ↔
          (∃ e ∈ l0, e.start_time ≤ t ∧ t < e.end_time) := by
        rw [← hd]
        exact covers_dropWhile_iff p t ht l0
      by_cases hb : e0.start_time ≤ p
      · rw [sweepPass_cons_busy p l0 ls e0 rest0 hd hb] at h
        have h2 : (e0 :: rest0) :: ls = ls2 := by
          have := congrArg Prod.snd h; simpa using this
        rw [← h2, busyIn_cons, busyIn_cons, hiff]
      · rw [sweepPass_cons_free p l0 ls e0 rest0 hd hb] at h
        have h2 : (e0 :: rest0) :: (sweepPass p ls).2 = ls2 := by
          have := congrArg Prod.snd h; simpa using this
        rw [← h2, busyIn_cons, busyIn_cons, hiff,
          ih p (sweepPass p ls).1 (sweepPass p ls).2 rfl t ht]

theorem sweepPass_isSome_of_busy : ∀ (ls : List (List Event)) (p : Int),
    (∃ l ∈ ls, ∃ e rest, l.dropWhile (fun e => decide (e.end_time ≤ p)) = e :: rest ∧
      e.start_time ≤ p) →
    ∃ p2 ls2, sweepPass p ls = (some p2, ls2) := by
  intro ls
  induction ls with
  | nil => intro p h; simp at h
  | cons l0 ls ih =>
    intro p h
    rcases hd : l0.dropWhile (fun e => decide (e.end_time ≤ p)) with _ | ⟨e0, rest0⟩
    · obtain ⟨l, hl, e, rest, hdrop, hbusy⟩ := h
      rcases List.mem_cons.mp hl with rfl | hl2
      · rw [hd] at hdrop; cases hdrop
      · obtain ⟨p2, ls2, hrec⟩ := ih p ⟨l, hl2, e, rest, hdrop, hbusy⟩
        refine ⟨p2, [] :: ls2, ?_⟩
        rw [sweepPass_cons_nil p l0 ls hd, hrec]
    · by_cases hb : e0.start_time ≤ p
      · exact ⟨e0.end_time, (e0 :: rest0) :: ls, sweepPass_cons_busy p l0 ls e0 rest0 hd hb⟩
      · obtain ⟨l, hl, e, rest, hdrop, hbusy⟩ := h
        rcases List.mem_cons.mp hl with rfl | hl2
        · rw [hd] at hdrop
          cases hdrop
          exact absurd hbusy hb
        · obtain ⟨p2, ls2, hrec⟩ := ih p ⟨l, hl2, e, rest, hdrop, hbusy⟩
          refine ⟨p2, (e0 :: rest0) :: ls2, ?_⟩
          rw [sweepPass_cons_free p l0 ls e0 rest0 hd hb, hrec]

/-! ### The minimum over front events -/

theorem listMin_cons_none (x : Int) (xs : List Int) (h : listMin xs = none) :
    listMin (x :: xs) = some x := by
  simp only [listMin, h]

theorem listMin_cons_some (x m : Int) (xs : List Int) (h : listMin xs = some m) :
    listMin (x :: xs) = some (min x m) := by
  simp only [listMin, h]

theorem listMin_none : ∀ (l : List Int), listMin l = none → l = [] := by
  intro l h
  cases l with
  | nil => rfl
  | cons x xs =>
    rcases hm : listMin xs with _ | m0
    · rw [listMin_cons_none x xs hm] at h
      cases h
    · rw [listMin_cons_some x m0 xs hm] at h
      cases h

theorem listMin_spec : ∀ (l : List Int) (m : Int), listMin l = some m →
    m ∈ l ∧ ∀ x ∈ l, m ≤ x := by
  intro l
  induction l with
  | nil => intro m h; simp [listMin] at h
  | cons x xs ih =>
    intro m h
    rcases hm : listMin xs with _ | m0
    · rw [listMin_cons_none x xs hm] at h
      cases h
      have hxs : xs = [] := listMin_none xs hm
      subst hxs
      refine ⟨List.mem_cons_self _ _, ?_⟩
      intro y hy
      simp at hy
      subst hy
      exact Int.le_refl _
    · rw [listMin_cons_some x m0 xs hm] at h
      cases h
      obtain ⟨hmem, hle⟩ := ih m0 hm
      refine ⟨?_, ?_⟩
      · rcases le_total x m0 with hx | hx
        · rw [min_eq_left hx]
          exact List.mem_cons_self _ _
        · rw [min_eq_right hx]
          exact List.mem_cons_of_mem x hmem
      · intro y hy
        rcases List.mem_cons.mp hy with rfl | hy2
        · exact min_le_left _ _
        · exact le_trans (min_le_right _ _) (hle y hy2)

theorem head?_eq_some_cons : ∀ (l : List Event) (e : Event), l.head? = some e →
    ∃ rest, l = e :: rest := by
  intro l e h
  cases l with
  | nil => cases h
  | cons a rest =>
    cases h
    exact ⟨rest, rfl⟩

theorem nextStart_some : ∀ (ls : List (List Event)) (m : Int), nextStart ls = some m →
    (∃ l ∈ ls, ∃ rest, l = (List.head? l).getD dummyEvent :: rest ∧
      ((List.head? l).getD dummyEvent).start_time = m) ∧
    (∀ l ∈ ls, ∀ e rest, l = e :: rest → m ≤ e.start_time) := by
  intro ls m h
  obtain ⟨hmem, hle⟩ := listMin_spec _ m h
  constructor
  · obtain ⟨e, he, hstart⟩ := List.mem_map.mp hmem
    obtain ⟨l, hl, hhead⟩ := List.mem_filterMap.mp he
    obtain ⟨rest, hrest⟩ := head?_eq_some_cons l e hhead
    exact ⟨l, hl, rest, by rw [hhead]; exact hrest, by rw [hhead]; exact hstart⟩
  · intro l hl e rest hrest
    apply hle
    apply List.mem_map_of_mem Event.start_time
    apply List.mem_filterMap.mpr
    exact ⟨l, hl, by rw [hrest]; rfl⟩

theorem nextStart_none : ∀ (ls : List (List Event)), nextStart ls = none →
    ∀ l ∈ ls, l = [] := by
  intro ls h l hl
  have hmap := listMin_none _ h
  rw [List.map_eq_nil_iff] at hmap
  have := List.filterMap_eq_nil_iff.mp hmap l hl
  exact List.head?_eq_none_iff.mp this

/-! ### Chains of disjoint events -/

theorem eventChain_tail (e : Event) (l : List Event) (h : eventChain (e :: l)) :
    eventChain l :=
  (List.chain'_cons'.mp h).2

theorem eventChain_dropWhile (f : Event → Bool) : ∀ (l : List Event),
    eventChain l → eventChain (l.dropWhile f) := by
  intro l
  induction l with
  | nil => intro h; exact h
  | cons a l ih =>
    intro h
    by_cases hf : f a
    · rw [List.dropWhile_cons_of_pos hf]
      exact ih (eventChain_tail a l h)
    · rw [List.dropWhile_cons_of_neg (by simpa using hf)]
      exact h

theorem mem_of_mem_dropWhile (f : Event → Bool) : ∀ (l : List Event) (e : Event),
    e ∈ l.dropWhile f → e ∈ l := by
  intro l
  induction l with
  | nil => intro e h; simp at h
  | cons a l ih =>
    intro e h
    by_cases hf : f a
    · rw [List.dropWhile_cons_of_pos hf] at h
      exact List.mem_cons_of_mem a (ih e h)
    · rw [List.dropWhile_cons_of_neg (by simpa using hf)] at h
      exact h

theorem eventChain_head_le : ∀ (rest : List Event) (e : Event), eventChain (e :: rest) →
    (∀ x ∈ rest, x.start_time < x.end_time) → ∀ x ∈ rest, e.end_time ≤ x.start_time := by
  intro rest
  induction rest with
  | nil => intro e _ _ x hx; simp at hx
  | cons b rest ih =>
    intro e hchain hnz x hx
    have hab : e.end_time ≤ b.start_time := (List.chain'_cons.mp hchain).1
    rcases List.mem_cons.mp hx with rfl | hx2
    · exact hab
    · have hbx := ih b (List.chain'_cons.mp hchain).2
        (fun y hy => hnz y (List.mem_cons_of_mem b hy)) x hx2
      have hbnz : b.start_time < b.end_time := hnz b (List.mem_cons_self b rest)
      omega

/-- An end-sorted, pairwise conflict-free calendar of events of positive
length is a chain: each event ends no later than the next starts. -/
theorem eventChain_of_sorted_conflictFree : ∀ (l : List Event), sortedByEnd l →
    conflictFree l → (∀ e ∈ l, e.start_time < e.end_time) → eventChain l := by
  intro l
  induction l with
  | nil => intro _ _ _; exact List.chain'_nil
  | cons a l ih =>
    intro hs hcf hnz
    cases l with
    | nil => exact List.chain'_singleton a
    | cons b l2 =>
      have hs2 := List.chain'_cons.mp hs
      have hcf2 := List.pairwise_cons.mp hcf
      apply List.chain'_cons.mpr
      constructor
      · have hno : ¬ overlaps a b := hcf2.1 b (List.mem_cons_self b l2)
        have hanz : a.start_time < a.end_time := hnz a (List.mem_cons_self a _)
        have hbnz : b.start_time < b.end_time :=
          hnz b (List.mem_cons_of_mem a (List.mem_cons_self b l2))
        simp only [overlaps, not_and, not_lt] at hno
        have hend : a.end_time ≤ b.end_time := hs2.1
        by_cases hab : a.start_time < b.end_time
        · have := hno hab
          omega
        · omega
      · exact ih hs2.2 hcf2.2 fun e he => hnz e (List.mem_cons_of_mem a he)

/-! ### Unfolding the sweep loop -/

theorem mkFree_start (s e : Int) : (mkFree s e).start_time = s := rfl

theorem mkFree_end (s e : Int) : (mkFree s e).end_time = e := rfl

theorem sweepLoopF_stop (fuel : Nat) (we p : Int) (ls : List (List Event)) (h : ¬ p < we) :
    sweepLoopF (fuel + 1) we p ls = [] := by
  simp only [sweepLoopF]
  rw [if_neg h]

theorem sweepLoopF_busy (fuel : Nat) (we p : Int) (ls : List (List Event)) (p2 : Int)
    (ls2 : List (List Event)) (hlt : p < we) (hsp : sweepPass p ls = (some p2, ls2)) :
    sweepLoopF (fuel + 1) we p ls = sweepLoopF fuel we p2 ls2 := by
  simp only [sweepLoopF]
  rw [if_pos hlt, hsp]

theorem sweepLoopF_free_some (fuel : Nat) (we p : Int) (ls : List (List Event))
    (ls2 : List (List Event)) (m : Int) (hlt : p < we) (hsp : sweepPass p ls = (none, ls2))
    (hns : nextStart ls2 = some m) :
    sweepLoopF (fuel + 1) we p ls = mkFree p (min m we) :: sweepLoopF fuel we m ls2 := by
  simp only [sweepLoopF]
  rw [if_pos hlt, hsp]
  show (match nextStart ls2 with
    | some m => mkFree p (min m we) :: sweepLoopF fuel we m ls2
    | none => if p = we then [] else [mkFree p we]) = _
  rw [hns]

theorem sweepLoopF_free_none (fuel : Nat) (we p : Int) (ls : List (List Event))
    (ls2 : List (List Event)) (hlt : p < we) (hsp : sweepPass p ls = (none, ls2))
    (hns : nextStart ls2 = none) :
    sweepLoopF (fuel + 1) we p ls = [mkFree p we] := by
  simp only [sweepLoopF]
  rw [if_pos hlt, hsp]
  show (match nextStart ls2 with
    | some m => mkFree p (min m we) :: sweepLoopF fuel we m ls2
    | none => if p = we then [] else [mkFree p we]) = _
  rw [hns, if_neg (by omega)]

theorem nextStart_gt (p : Int) (ls ls2 : List (List Event)) (m : Int)
    (hsp : sweepPass p ls = (none, ls2)) (hns : nextStart ls2 = some m) : p < m := by
  obtain ⟨⟨l, hl, rest, hrest, hstart⟩, _⟩ := nextStart_some ls2 m hns
  have := sweepPass_none_heads ls p ls2 hsp l hl _ rest hrest
  omega

/-! ### Emitted windows are inside the range, nonempty and ordered -/

theorem sweepLoopF_bounds : ∀ (fuel : Nat) (we p : Int) (ls : List (List Event)),
    (∀ w ∈ sweepLoopF fuel we p ls,
      p ≤ w.start_time ∧ w.start_time < w.end_time ∧ w.end_time ≤ we) ∧
    (sweepLoopF fuel we p ls).Pairwise (fun a b => a.end_time ≤ b.start_time) := by
  intro fuel
  induction fuel with
  | zero =>
    intro we p ls
    exact ⟨fun w hw => absurd hw (List.not_mem_nil w), List.Pairwise.nil⟩
  | succ fuel ih =>
    intro we p ls
    by_cases hlt : p < we
    · rcases hsp : sweepPass p ls with ⟨r, ls2⟩
      cases r with
      | some p2 =>
        rw [sweepLoopF_busy fuel we p ls p2 ls2 hlt hsp]
        have hp2 : p < p2 := sweepPass_some_lt ls p p2 ls2 hsp
        obtain ⟨hb, hpw⟩ := ih we p2 ls2
        refine ⟨fun w hw => ?_, hpw⟩
        have := hb w hw
        omega
      | none =>
        rcases hns : nextStart ls2 with _ | m
        · rw [sweepLoopF_free_none fuel we p ls ls2 hlt hsp hns]
          refine ⟨fun w hw => ?_, List.pairwise_singleton _ _⟩
          rcases List.mem_singleton.mp hw with rfl
          rw [mkFree_start, mkFree_end]
          omega
        · rw [sweepLoopF_free_some fuel we p ls ls2 m hlt hsp hns]
          have hm : p < m := nextStart_gt p ls ls2 m hsp hns
          obtain ⟨hb, hpw⟩ := ih we m ls2
          constructor
          · intro w hw
            rcases List.mem_cons.mp hw with rfl | hw2
            · rw [mkFree_start, mkFree_end]
              constructor
              · exact Int.le_refl p
              · constructor
                · exact lt_min hm hlt
                · exact min_le_right m we
            · have := hb w hw2
              omega
          · apply List.pairwise_cons.mpr
            refine ⟨fun w hw => ?_, hpw⟩
            have := (hb w hw).1
            rw [mkFree_end]
            have : min m we ≤ m := min_le_left m we
            omega
    · rw [sweepLoopF_stop fuel we p ls hlt]
      exact ⟨fun w hw => absurd hw (List.not_mem_nil w), List.Pairwise.nil⟩

/-! ### Preservation of calendar invariants across a pass -/

theorem sweepPass_preserves_nz (ls : List (List Event)) (p : Int) (r : Option Int)
    (ls2 : List (List Event)) (hsp : sweepPass p ls = (r, ls2))
    (hnz : ∀ l ∈ ls, ∀ e ∈ l, e.start_time < e.end_time) :
    ∀ l ∈ ls2, ∀ e ∈ l, e.start_time < e.end_time := by
  intro l2 hl2 e he
  obtain ⟨l, hl, hcase⟩ := sweepPass_lists_shape ls p r ls2 hsp l2 hl2
  rcases hcase with rfl | rfl
  · exact hnz l hl e (mem_of_mem_dropWhile _ l e he)
  · exact hnz l2 hl e he

theorem sweepPass_preserves_chain (ls : List (List Event)) (p : Int) (r : Option Int)
    (ls2 : List (List Event)) (hsp : sweepPass p ls = (r, ls2))
    (hch : ∀ l ∈ ls, eventChain l) : ∀ l ∈ ls2, eventChain l := by
  intro l2 hl2
  obtain ⟨l, hl, hcase⟩ := sweepPass_lists_shape ls p r ls2 hsp l2 hl2
  rcases hcase with rfl | rfl
  · exact eventChain_dropWhile _ l (hch l hl)
  · exact hch l2 hl

theorem free_case_min_start (m : Int) (ls2 : List (List Event))
    (hns : nextStart ls2 = some m)
    (hch : ∀ l ∈ ls2, eventChain l)
    (hnz : ∀ l ∈ ls2, ∀ e ∈ l, e.start_time < e.end_time) :
    ∀ l ∈ ls2, ∀ e ∈ l, m ≤ e.start_time := by
  intro l hl e he
  obtain ⟨_, hlow⟩ := nextStart_some ls2 m hns
  cases l with
  | nil => simp at he
  | cons e0 rest =>
    have hm0 : m ≤ e0.start_time := hlow (e0 :: rest) hl e0 rest rfl
    rcases List.mem_cons.mp he with rfl | he2
    · exact hm0
    · have hle := eventChain_head_le rest e0 (hch _ hl)
        (fun x hx => hnz _ hl x (List.mem_cons_of_mem e0 hx)) e he2
      have h0nz : e0.start_time < e0.end_time := hnz _ hl e0 (List.mem_cons_self _ _)
      omega

/-! ### The partition property of the sweep -/

theorem sweepLoopF_partition : ∀ (fuel : Nat) (we p : Int) (ls : List (List Event)),
    (we - p).toNat < fuel →
    (∀ l ∈ ls, eventChain l) →
    (∀ l ∈ ls, ∀ e ∈ l, e.start_time < e.end_time) →
    ∀ t, p ≤ t → t < we →
    ((∃ w ∈ sweepLoopF fuel we p ls, w.start_time ≤ t ∧ t < w.end_time) ↔
      ¬ busyIn ls t) := by
  intro fuel
  induction fuel with
  | zero =>
    intro we p ls hfuel
    exact absurd hfuel (Nat.not_lt_zero _)
  | succ fuel ih =>
    intro we p ls hfuel hch hnz t hpt htw
    have hlt : p < we := by omega
    rcases hsp : sweepPass p ls with ⟨r, ls2⟩
    have hch2 := sweepPass_preserves_chain ls p r ls2 hsp hch
    have hnz2 := sweepPass_preserves_nz ls p r ls2 hsp hnz
    have hbusyiff := sweepPass_busyIn_iff ls p r ls2 hsp
    cases r with
    | some p2 =>
      rw [sweepLoopF_busy fuel we p ls p2 ls2 hlt hsp]
      have hp2 : p < p2 := sweepPass_some_lt ls p p2 ls2 hsp
      rcases lt_or_le t p2 with htp2 | htp2
      · constructor
        · rintro ⟨w, hw, hcov⟩
          have hbw := (sweepLoopF_bounds fuel we p2 ls2).1 w hw
          exact absurd hcov.1 (by omega)
        · intro hfree
          exfalso
          apply hfree
          obtain ⟨l2, hl2, e, rest, hlrest, hes, hee⟩ :=
            sweepPass_some_front ls p p2 ls2 hsp
          rw [← hbusyiff t hpt]
          exact ⟨l2, hl2, e, by rw [hlrest]; exact List.mem_cons_self _ _,
            by omega, by omega⟩
      · rw [ih we p2 ls2 (by omega) hch2 hnz2 t htp2 htw]
        exact not_congr (hbusyiff t hpt)
    | none =>
      rcases hns : nextStart ls2 with _ | m
      · rw [sweepLoopF_free_none fuel we p ls ls2 hlt hsp hns]
        have hempty : ∀ l ∈ ls2, l = [] := nextStart_none ls2 hns
        constructor
        · intro _
          rw [← hbusyiff t hpt]
          rintro ⟨l, hl, e, he, _⟩
          rw [hempty l hl] at he
          simp at he
        · intro _
          exact ⟨mkFree p we, List.mem_singleton.mpr rfl,
            by rw [mkFree_start, mkFree_end]; omega⟩
      · have hm : p < m := nextStart_gt p ls ls2 m hsp hns
        rw [sweepLoopF_free_some fuel we p ls ls2 m hlt hsp hns]
        have hminstart := free_case_min_start m ls2 hns hch2 hnz2
        rcases lt_or_le t m with htm | htm
        · constructor
          · intro _
            rw [← hbusyiff t hpt]
            rintro ⟨l, hl, e, he, hcov⟩
            have := hminstart l hl e he
            omega
          · intro _
            refine ⟨mkFree p (min m we), List.mem_cons_self _ _, ?_⟩
            rw [mkFree_start, mkFree_end]
            exact ⟨hpt, lt_min htm htw⟩
        · have hiff2 := ih we m ls2 (by omega) hch2 hnz2 t htm htw
          constructor
          · rintro ⟨w, hw, hcov⟩
            rcases List.mem_cons.mp hw with rfl | hw2
            · obtain ⟨h1, h2⟩ := hcov
              rw [mkFree_end] at h2
              have hminle : min m we ≤ m := min_le_left m we
              exact absurd h2 (by omega)
            · rw [← hbusyiff t hpt]
              exact hiff2.mp ⟨w, hw2, hcov⟩
          · intro hfree
            have hf2 : ¬ busyIn ls2 t := by
              rw [hbusyiff t hpt]
              exact hfree
            obtain ⟨w, hw, hcov⟩ := hiff2.mpr hf2
            exact ⟨w, List.mem_cons_of_mem _ hw, hcov⟩

/-! ### Maximality: consecutive windows are strictly separated -/

theorem sweepLoopF_maximal : ∀ (fuel : Nat) (we p : Int) (ls : List (List Event)),
    (∀ l ∈ ls, ∀ e ∈ l, e.start_time < e.end_time) →
    (sweepLoopF fuel we p ls).Chain' (fun a b => a.end_time < b.start_time) := by
  intro fuel
  induction fuel with
  | zero => intro we p ls _; exact List.chain'_nil
  | succ fuel ih =>
    intro we p ls hnz
    by_cases hlt : p < we
    · rcases hsp : sweepPass p ls with ⟨r, ls2⟩
      have hnz2 := sweepPass_preserves_nz ls p r ls2 hsp hnz
      cases r with
      | some p2 =>
        rw [sweepLoopF_busy fuel we p ls p2 ls2 hlt hsp]
        exact ih we p2 ls2 hnz2
      | none =>
        rcases hns : nextStart ls2 with _ | m
        · rw [sweepLoopF_free_none fuel we p ls ls2 hlt hsp hns]
          exact List.chain'_singleton _
        · rw [sweepLoopF_free_some fuel we p ls ls2 m hlt hsp hns]
          apply List.chain'_cons'.mpr
          refine ⟨?_, ih we m ls2 hnz2⟩
          intro b hb
          have hbmem : b ∈ sweepLoopF fuel we m ls2 := List.mem_of_mem_head? hb
          rw [mkFree_end]
          have hminle : min m we ≤ m := min_le_left m we
          cases fuel with
          | zero => simp [sweepLoopF] at hbmem
          | succ fuel2 =>
            by_cases hmw : m < we
            · obtain ⟨⟨l, hl, rest, hrest, hstart⟩, _⟩ := nextStart_some ls2 m hns
              set e0 : Event := (List.head? l).getD dummyEvent with he0
              have h0nz : e0.start_time < e0.end_time := by
                apply hnz2 l hl
                rw [hrest]
                exact List.mem_cons_self _ _
              have hdrop : l.dropWhile (fun e => decide (e.end_time ≤ m)) = e0 ::
                  rest := by
                rw [hrest]
                exact List.dropWhile_cons_of_neg (by simp; omega)
              obtain ⟨p2, ls3, hsp2⟩ := sweepPass_isSome_of_busy ls2 m
                ⟨l, hl, e0, rest, hdrop, by omega⟩
              rw [sweepLoopF_busy fuel2 we m ls2 p2 ls3 hmw hsp2] at hbmem
              have hbw := (sweepLoopF_bounds fuel2 we p2 ls3).1 b hbmem
              have hp2 : m < p2 := sweepPass_some_lt ls2 m p2 ls3 hsp2
              omega
            · rw [sweepLoopF_stop fuel2 we m ls2 hmw] at hbmem
              simp at hbmem
    · rw [sweepLoopF_stop fuel we p ls hlt]
      exact List.chain'_nil

/-! ### Fuel beyond the pointer bound does not change the output -/

theorem sweepLoopF_fuel_stable : ∀ (f1 f2 : Nat) (we p : Int) (ls : List (List Event)),
    (we - p).toNat < f1 → (we - p).toNat < f2 →
    sweepLoopF f1 we p ls = sweepLoopF f2 we p ls := by
  intro f1
  induction f1 with
  | zero => intro f2 we p ls h1 _; exact absurd h1 (Nat.not_lt_zero _)
  | succ f1 ih =>
    intro f2 we p ls h1 h2
    cases f2 with
    | zero => exact absurd h2 (Nat.not_lt_zero _)
    | succ f2 =>
      by_cases hlt : p < we
      · rcases hsp : sweepPass p ls with ⟨r, ls2⟩
        cases r with
        | some p2 =>
          rw [sweepLoopF_busy f1 we p ls p2 ls2 hlt hsp,
            sweepLoopF_busy f2 we p ls p2 ls2 hlt hsp]
          have hp2 := sweepPass_some_lt ls p p2 ls2 hsp
          exact ih f2 we p2 ls2 (by omega) (by omega)
        | none =>
          rcases hns : nextStart ls2 with _ | m
          · rw [sweepLoopF_free_none f1 we p ls ls2 hlt hsp hns,
              sweepLoopF_free_none f2 we p ls ls2 hlt hsp hns]
          · have hm := nextStart_gt p ls ls2 m hsp hns
            rw [sweepLoopF_free_some f1 we p ls ls2 m hlt hsp hns,
              sweepLoopF_free_some f2 we p ls ls2 m hlt hsp hns,
              ih f2 we m ls2 (by omega) (by omega)]
      · rw [sweepLoopF_stop f1 we p ls hlt, sweepLoopF_stop f2 we p ls hlt]

/-! ### Claims about the free-time sweep -/

/-- C10: every emitted FreeWindow is nonempty and lies within the query
window, consecutive windows do not overlap (each ends no later than the
next starts), and a query with `windowStart = windowEnd` yields an empty
result — with no assumption on the input calendars. -/
theorem intersectFree_windows_wf (cals : List (List Event)) (ws we : Int) :
    (∀ w ∈ get_inverse_schedule cals ws we,
      ws ≤ w.start_time ∧ w.start_time < w.end_time ∧ w.end_time ≤ we) ∧
    (get_inverse_schedule cals ws we).Chain' (fun a b => a.end_time ≤ b.start_time) ∧
    get_inverse_schedule cals ws ws = [] := by
  refine ⟨(sweepLoopF_bounds _ we ws cals).1, ?_, ?_⟩
  · exact ((sweepLoopF_bounds _ we ws cals).2).chain'
  · show sweepLoopF ((ws - ws).toNat + 1) ws ws cals = []
    have h0 : (ws - ws).toNat = 0 := by omega
    rw [h0]
    exact sweepLoopF_stop 0 ws ws cals (by omega)

/-- C10 witness: on the calendar `[[evC]]` with window `[0,6)`, the
emitted window `[4,6)` is nonempty and inside the range. -/
theorem intersectFree_windows_wf_witness :
    (0 : Int) ≤ (mkFree 4 6).start_time ∧
    (mkFree 4 6).start_time < (mkFree 4 6).end_time ∧ (mkFree 4 6).end_time ≤ 6 :=
  (intersectFree_windows_wf [[evC]] 0 6).1 (mkFree 4 6) (by decide)

/-- C3 (amended): for input calendars that are end-sorted, internally
conflict-free and whose events all have `start < end` (zero-length events
excluded), the sweep's windows lie inside the query range, are nonempty,
ordered and non-overlapping, and a point of the range lies in an emitted
window exactly when no event of any queried calendar covers it — the
FreeWindows and the remaining busy spans partition the range. -/
theorem intersectFree_partition (cals : List (List Event)) (ws we : Int)
    (hs : ∀ l ∈ cals, sortedByEnd l) (hcf : ∀ l ∈ cals, conflictFree l)
    (hnz : ∀ l ∈ cals, ∀ e ∈ l, e.start_time < e.end_time) (_hwswe : ws ≤ we) :
    (∀ w ∈ get_inverse_schedule cals ws we,
      ws ≤ w.start_time ∧ w.start_time < w.end_time ∧ w.end_time ≤ we) ∧
    (get_inverse_schedule cals ws we).Pairwise (fun a b => a.end_time ≤ b.start_time) ∧
    (∀ t, ws ≤ t → t < we →
      ((∃ w ∈ get_inverse_schedule cals ws we, w.start_time ≤ t ∧ t < w.end_time) ↔
        ¬ busyIn cals t)) := by
  have hch : ∀ l ∈ cals, eventChain l := fun l hl =>
    eventChain_of_sorted_conflictFree l (hs l hl) (hcf l hl) (hnz l hl)
  refine ⟨(sweepLoopF_bounds _ we ws cals).1, (sweepLoopF_bounds _ we ws cals).2, ?_⟩
  intro t h1 h2
  exact sweepLoopF_partition ((we - ws).toNat + 1) we ws cals (by omega) hch hnz t h1 h2

/-- C3 counterexample: the calendar `[evZ, evY]` — the zero-length event
`[5,5)` followed by `[3,5)` — is sorted by end time (a tie) and
conflict-free under the overlap test, yet the sweep over the window
`[0,10)` emits `[0,5)` as free although the event `[3,5)` covers the
point 3, so a point of an emitted window is busy. -/
theorem intersectFree_partition_cex :
    sortedByEnd [evZ, evY] ∧ conflictFree [evZ, evY] ∧
    get_inverse_schedule [[evZ, evY]] 0 10 = [mkFree 0 5, mkFree 5 10] ∧
    (mkFree 0 5).start_time ≤ 3 ∧ (3 : Int) < (mkFree 0 5).end_time ∧
    busyIn [[evZ, evY]] 3 := by decide

/-- C3 witness: on the single calendar `[[evC]]` (one event `[2,4)`) and
window `[0,6)`, the free point 1 lies in an emitted window. -/
theorem intersectFree_partition_witness :
    ¬ busyIn [[evC]] 1 ∧
    (∃ w ∈ get_inverse_schedule [[evC]] 0 6, w.start_time ≤ 1 ∧ 1 < w.end_time) :=
  ⟨by decide, ((intersectFree_partition [[evC]] 0 6 (by decide) (by decide) (by decide)
    (by decide)).2.2 1 (by decide) (by decide)).mpr (by decide)⟩

/-- C4 (amended): when every event of every input calendar has positive
length (zero-length events excluded), consecutive FreeWindows are
strictly separated — each ends strictly before the next starts — so no
two share a boundary and adjacent free segments are always merged. -/
theorem intersectFree_maximal (cals : List (List Event)) (ws we : Int)
    (hnz : ∀ l ∈ cals, ∀ e ∈ l, e.start_time < e.end_time) :
    (get_inverse_schedule cals ws we).Chain' (fun a b => a.end_time < b.start_time) :=
  sweepLoopF_maximal _ we ws cals hnz

/-- C4 counterexample: a single calendar holding only the zero-length
event `[5,5)`, which the validator admits into an empty calendar, makes
the sweep over `[0,10)` emit the adjacent windows `[0,5)` and `[5,10)`:
they share the boundary 5 with no busy interval strictly between them. -/
theorem intersectFree_maximal_cex :
    add_event [] evZ = Except.ok [evZ] ∧
    get_inverse_schedule [[evZ]] 0 10 = [mkFree 0 5, mkFree 5 10] ∧
    (mkFree 0 5).end_time = (mkFree 5 10).start_time := by decide

/-- C4 witness: with the positive-length calendar `[[evC]]` the emitted
windows of the window `[0,6)` are strictly separated. -/
theorem intersectFree_maximal_witness :
    (get_inverse_schedule [[evC]] 0 6).Chain' (fun a b => a.end_time < b.start_time) :=
  intersectFree_maximal [[evC]] 0 6 (by decide)

theorem sweepPass_first_busy_fst : ∀ (ls : List (List Event)) (p : Int) (i : Nat)
    (e : Event) (rest : List Event),
    (∀ j, j < i → ∀ e2 rest2,
      (ls.getD j []).dropWhile (fun ev => decide (ev.end_time ≤ p)) = e2 :: rest2 →
      ¬ e2.start_time ≤ p) →
    (ls.getD i []).dropWhile (fun ev => decide (ev.end_time ≤ p)) = e :: rest →
    e.start_time ≤ p →
    (sweepPass p ls).1 = some e.end_time := by
  intro ls
  induction ls with
  | nil =>
    intro p i e rest _ hdrop _
    simp at hdrop
  | cons l0 ls ih =>
    intro p i e rest hfirst hdrop hbusy
    cases i with
    | zero =>
      have hd : l0.dropWhile (fun ev => decide (ev.end_time ≤ p)) = e :: rest := by
        simpa using hdrop
      rw [sweepPass_cons_busy p l0 ls e rest hd hbusy]
    | succ i0 =>
      have hdrop2 : (ls.getD i0 []).dropWhile (fun ev => decide (ev.end_time ≤ p)) =
          e :: rest := by
        simpa using hdrop
      have hfirst2 : ∀ j, j < i0 → ∀ e2 rest2,
          (ls.getD j []).dropWhile (fun ev => decide (ev.end_time ≤ p)) = e2 :: rest2 →
          ¬ e2.start_time ≤ p := by
        intro j hj e2 rest2 hd2
        exact hfirst (j + 1) (by omega) e2 rest2 (by simpa using hd2)
      rcases hd0 : l0.dropWhile (fun ev => decide (ev.end_time ≤ p)) with _ | ⟨e0, rest0⟩
      · rw [sweepPass_cons_nil p l0 ls hd0]
        exact ih p i0 e rest hfirst2 hdrop2 hbusy
      · have hnb : ¬ e0.start_time ≤ p :=
          hfirst 0 (Nat.succ_pos i0) e0 rest0 (by simpa using hd0)
        rw [sweepPass_cons_free p l0 ls e0 rest0 hd0 hnb]
        exact ih p i0 e rest hfirst2 hdrop2 hbusy

/-- C7 (amended): in an iteration of the sweep in which at least one
calendar's front event after dropping is busy at the pointer, the code
sets the pointer to the end of the front event of the FIRST such calendar
in list order (not to the minimum end over all busy calendars), emits no
window for that span, and restarts the dropping pass. -/
theorem sweepPass_first_busy (ls : List (List Event)) (p : Int) (i : Nat)
    (e : Event) (rest : List Event)
    (hfirst : ∀ j, j < i → ∀ e2 rest2,
      (ls.getD j []).dropWhile (fun ev => decide (ev.end_time ≤ p)) = e2 :: rest2 →
      ¬ e2.start_time ≤ p)
    (hdrop : (ls.getD i []).dropWhile (fun ev => decide (ev.end_time ≤ p)) = e :: rest)
    (hbusy : e.start_time ≤ p) :
    (sweepPass p ls).1 = some e.end_time ∧
    (∀ fuel we, p < we →
      sweepLoopF (fuel + 1) we p ls = sweepLoopF fuel we e.end_time (sweepPass p ls).2) := by
  have h1 := sweepPass_first_busy_fst ls p i e rest hfirst hdrop hbusy
  refine ⟨h1, fun fuel we hwe => ?_⟩
  exact sweepLoopF_busy fuel we p ls e.end_time (sweepPass p ls).2 hwe (by rw [← h1])

/-- C7 witness: at pointer 0 over `[[evA], [evB3]]`, the first calendar's
front `evA` is busy, the pass reports its end 10, and the loop restarts
at pointer 10 without emitting a window. -/
theorem sweepPass_first_busy_witness :
    (sweepPass 0 [[evA], [evB3]]).1 = some 10 ∧
    sweepLoopF 4 20 0 [[evA], [evB3]] =
      sweepLoopF 3 20 10 (sweepPass 0 [[evA], [evB3]]).2 := by
  have h := sweepPass_first_busy [[evA], [evB3]] 0 0 evA []
    (fun j hj => absurd hj (Nat.not_lt_zero j)) (by decide) (by decide)
  exact ⟨h.1, h.2 3 20 (by decide)⟩

/-- C7 counterexample: at pointer 0 with calendars `[[evA], [evB3]]`
(front events `[0,10)` and `[0,3)`, both busy at 0), the code advances
the pointer to 10, the first busy calendar's front end, while the spec's
`min(end)` over all busy calendars is 3. -/
theorem sweepPass_min_end_cex :
    sweepPass 0 [[evA], [evB3]] = (some 10, [[evA], [evB3]]) ∧
    specMinBusyEnd 0 [[evA], [evB3]] = some 3 ∧ (10 : Int) ≠ 3 := by decide

/-- C8: the sweep loop terminates. A busy pass strictly advances the
pointer, a free step advances it to the strictly larger minimum front
start, and `(windowEnd - pointer).toNat` bounds the remaining
iterations: any fuel above it yields the loop's output unchanged, so the
loop always exits once the pointer reaches or passes `windowEnd`. -/
theorem sweep_terminates (we p : Int) (ls : List (List Event)) :
    (∀ p2 ls2, sweepPass p ls = (some p2, ls2) → p < p2) ∧
    (∀ ls2 m, sweepPass p ls = (none, ls2) → nextStart ls2 = some m → p < m) ∧
    (∀ fuel, (we - p).toNat < fuel → sweepLoopF fuel we p ls = sweepLoop we p ls) :=
  ⟨fun p2 ls2 h => sweepPass_some_lt ls p p2 ls2 h,
   fun ls2 m h hm => nextStart_gt p ls ls2 m h hm,
   fun fuel hf => sweepLoopF_fuel_stable fuel ((we - p).toNat + 1) we p ls hf (by omega)⟩

/-- C8 witness: concrete instances of the three termination facts. -/
theorem sweep_terminates_witness :
    (0 : Int) < 10 ∧ (0 : Int) < 2 ∧ sweepLoopF 25 10 0 [[evA]] = sweepLoop 10 0 [[evA]] :=
  ⟨(sweep_terminates 10 0 [[evA]]).1 10 [[evA]] (by decide),
   (sweep_terminates 10 0 [[evC]]).2.1 [[evC]] 2 (by decide) (by decide),
   (sweep_terminates 10 0 [[evA]]).2.2 25 (by decide)⟩

/-- C9 witness: the concrete instance on the calendar `[evA]` and
candidate `evB`. -/
theorem addEvent_no_overlapsNext_witness :
    add_event [evA] evB ≠ Except.error (AddError.overlapsNext evA) :=
  addEvent_no_overlapsNext [evA] evB evA
